import Mathlib

/-!
Verification of the `TransitiveClosure` subsystem of the repository
(`src/utils/transitive_closure.h`).

The header declares the data model (`Data`, `Data::Node`, `Data::Component`),
the in-header member functions (`Component::IsNext` and the three
`DebugToString` functions) and the out-of-line entry points `Compute`,
`Data::FindUnorderedComponentPairs` and `Data::FindComponentsWithCycles`.
The in-header code is embedded directly below.  The out-of-line bodies are
not part of the repository sources, so they are modelled from the spec
(each such definition carries a doc comment starting with
`Modelled from the spec:`).

The input graph of `Compute` is modelled as a node count `n : Nat` together
with a successor function `adj : Nat → List Nat` standing for the
edge-enumeration callback (`func_t`): `adj a` is the list of nodes that the
callback reports as directly reachable from `a`, in ascending order.
`std::size_t` values are modelled as `Nat`; the only place where wrap-around
matters is the `-1` default initializer of `Node`, which on the 64-bit
target becomes `2 ^ 64 - 1`.
-/

namespace TransitiveClosure

/-- Maximum value of `std::size_t` on the 64-bit target platform;
`std::size_t(-1)` wraps around to this value. -/
def sizeTMax : Nat := 2 ^ 64 - 1

/-- Embeds `TransitiveClosure::Data::Node`.  The C++ default member
initializers are `std::size_t root = -1;` and `std::size_t comp = -1;`,
so both fields default to `size_t(-1) = sizeTMax`. -/
structure Node where
  root : Nat := sizeTMax
  comp : Nat := sizeTMax

/-- Embeds the semantics of `fmt::join(v, ",")`: the elements' renderings
joined with a comma between consecutive elements. -/
def fmtJoin : List String → String
  | [] => ""
  | s :: rest => rest.foldl (fun acc t => acc ++ "," ++ t) s

/-- Rendering of a `std::size_t` value by `fmt` (decimal). -/
def natStr (x : Nat) : String := toString x

/-- Embeds `Node::DebugToString`: `FMT("({},{})", root, comp)`. -/
def Node.DebugToString (nd : Node) : String :=
  "(" ++ natStr nd.root ++ "," ++ natStr nd.comp ++ ")"

/-- Embeds `TransitiveClosure::Data::Component`.  `next_flags` is a
`std::vector<unsigned char>` holding boolean `0`/`1` values, modelled as
`List Bool`. -/
structure Component where
  nodes : List Nat
  next : List Nat
  next_flags : List Bool

instance : Inhabited Component := ⟨⟨[], [], []⟩⟩

/-- Embeds `Component::IsNext`:
`return i < next_flags.size() && bool(next_flags[i]);` — the indexing
happens only under the bounds test (short-circuit `&&`), which the
embedding reflects by reading the list with the default-valued `getD`. -/
def Component.IsNext (c : Component) (i : Nat) : Bool :=
  decide (i < c.next_flags.length) && c.next_flags.getD i false

/-- Rendering of one `unsigned char` flag by `fmt` (the integer `0` or `1`). -/
def flagStr (b : Bool) : String := if b then "1" else "0"

/-- Embeds `Component::DebugToString`:
`FMT("{{nodes=[{}],next=[{}],next_flags=[{}]}}", fmt::join(nodes, ","),
fmt::join(next, ","), fmt::join(next_flags, ","))`. -/
def Component.DebugToString (c : Component) : String :=
  "\x7bnodes=[" ++ fmtJoin (c.nodes.map natStr) ++ "],next=[" ++
    fmtJoin (c.next.map natStr) ++ "],next_flags=[" ++
    fmtJoin (c.next_flags.map flagStr) ++ "]\x7d"

/-- Embeds `TransitiveClosure::Data`. -/
structure Data where
  nodes : List Node
  components : List Component

/-- Embeds the comma-separating append loop used by `Data::DebugToString`
(`for (i...) { if (i != 0) ret += ","; ret += v[i].DebugToString(); }`);
`p.1` is the loop index `i`. -/
def dbgLoop {α : Type} (f : α → String) (init : String) (l : List α) : String :=
  l.enum.foldl (fun ret p => (if p.1 ≠ 0 then ret ++ "," else ret) ++ f p.2) init

/-- Embeds `Data::DebugToString`: starts from `"{nodes=["`, appends the node
renderings comma-separated, then `"],components=["`, the component
renderings comma-separated, and finally `"]}"`. -/
def Data.DebugToString (d : Data) : String :=
  (dbgLoop Component.DebugToString
    ((dbgLoop Node.DebugToString "\x7bnodes=[" d.nodes) ++ "],components=[")
    d.components) ++ "]\x7d"

theorem foldl_comma_append (l : List String) (s t : String) :
    l.foldl (fun acc u => acc ++ "," ++ u) (s ++ t)
      = s ++ l.foldl (fun acc u => acc ++ "," ++ u) t := by
  induction l generalizing t with
  | nil => rfl
  | cons a l ih =>
    simp only [List.foldl_cons]
    rw [String.append_assoc s t ",", String.append_assoc s (t ++ ",") a]
    exact ih ((t ++ ",") ++ a)

theorem dbgLoop_from_ge_one {α : Type} (f : α → String) (l : List α) :
    ∀ k acc, 1 ≤ k →
      (List.enumFrom k l).foldl
          (fun ret p => (if p.1 ≠ 0 then ret ++ "," else ret) ++ f p.2) acc
        = (l.map f).foldl (fun acc u => acc ++ "," ++ u) acc := by
  induction l with
  | nil => intro k acc _; rfl
  | cons a l ih =>
    intro k acc hk
    simp only [List.enumFrom, List.foldl_cons, List.map_cons]
    rw [if_pos (by omega : k ≠ 0)]
    exact ih (k + 1) (acc ++ "," ++ f a) (by omega)

theorem dbgLoop_eq {α : Type} (f : α → String) (init : String) (l : List α) :
    dbgLoop f init l = init ++ fmtJoin (l.map f) := by
  cases l with
  | nil => simp [dbgLoop, fmtJoin, List.enum]
  | cons a l =>
    unfold dbgLoop fmtJoin
    simp only [List.enum_cons, List.foldl_cons, List.map_cons]
    rw [if_neg (by simp)]
    rw [dbgLoop_from_ge_one f l 1 (init ++ f a) (le_refl 1)]
    exact foldl_comma_append (l.map f) init (f a)

/-- C9: the debug text renderings are canonical: a node renders exactly as
`(root,comp)`, a component as a brace-delimited record listing `nodes`,
`next` and `next_flags` as comma-joined lists, and a `Data` value as its
nodes list followed by its components list; each is a function of the
stored fields only (so deterministic). -/
theorem debug_strings_canonical (d : Data) :
    d.DebugToString
        = "\x7bnodes=[" ++ fmtJoin (d.nodes.map Node.DebugToString) ++
            "],components=[" ++ fmtJoin (d.components.map Component.DebugToString) ++ "]\x7d"
      ∧ (∀ nd : Node, nd.DebugToString = "(" ++ natStr nd.root ++ "," ++ natStr nd.comp ++ ")")
      ∧ (∀ c : Component, c.DebugToString
            = "\x7bnodes=[" ++ fmtJoin (c.nodes.map natStr) ++ "],next=[" ++
                fmtJoin (c.next.map natStr) ++ "],next_flags=[" ++
                fmtJoin (c.next_flags.map flagStr) ++ "]\x7d") := by
  refine ⟨?_, fun _ => rfl, fun _ => rfl⟩
  unfold Data.DebugToString
  rw [dbgLoop_eq, dbgLoop_eq]

/-- C7: `IsNext i` returns `false` (rather than failing) whenever `i` is at
or beyond the stored length of `next_flags`; the out-of-range read is
guarded away by the bounds test. -/
theorem isNext_out_of_range (c : Component) (i : Nat)
    (h : c.next_flags.length ≤ i) : c.IsNext i = false := by
  unfold Component.IsNext
  rw [decide_eq_false (by omega)]
  rfl

theorem isNext_out_of_range_witness :
    Component.IsNext ⟨[0], [0], [true]⟩ 5 = false :=
  isNext_out_of_range ⟨[0], [0], [true]⟩ 5 (by decide)

/-- C10: a default-constructed `Node` has both `root` and `comp` equal to
`size_t(-1)`, the maximum `std::size_t` value `2 ^ 64 - 1`; any valid node
or component index is `< n ≤ sizeTMax`, so the sentinel is never a valid
index. -/
theorem default_node_sentinel :
    ({} : Node).root = 2 ^ 64 - 1 ∧ ({} : Node).comp = 2 ^ 64 - 1 ∧
      ∀ n i : Nat, n ≤ sizeTMax → i < n → i ≠ sizeTMax := by
  refine ⟨rfl, rfl, fun n i hn hi => ?_⟩
  unfold sizeTMax at hn ⊢
  omega

theorem default_node_sentinel_witness :
    ({} : Node).root = 2 ^ 64 - 1 ∧ (5 : Nat) ≠ sizeTMax :=
  ⟨default_node_sentinel.1,
    default_node_sentinel.2.2 6 5 (by unfold sizeTMax; omega) (by omega)⟩

/-- Validity of the edge-enumeration callback: for nodes `a` in range, every
enumerated successor is again in range. -/
def ValidAdj (n : Nat) (adj : Nat → List Nat) : Prop :=
  ∀ a, a < n → ∀ b, b ∈ adj a → b < n

/-- Contract of `func_t`: for each node the callback enumerates the directly
reachable nodes in strictly ascending order. -/
def Ascending (n : Nat) (adj : Nat → List Nat) : Prop :=
  ∀ a, a < n → (adj a).Pairwise (· < ·)

/-- One edge of the original graph. -/
def Step (adj : Nat → List Nat) (a b : Nat) : Prop := b ∈ adj a

/-- Reachability in one or more steps along edges of the original graph. -/
def Reaches (adj : Nat → List Nat) (a b : Nat) : Prop :=
  Relation.TransGen (Step adj) a b

/-- One round of the reachable-set saturation: keep every in-range node that
is already in `S` or is a direct successor of a member of `S`. -/
def stepSet (adj : Nat → List Nat) (n : Nat) (S : List Nat) : List Nat :=
  (List.range n).filter fun b => decide (b ∈ S ∨ ∃ u ∈ S, b ∈ adj u)

/-- Starting set of the saturation from `a`: the in-range direct successors
of `a`. -/
def reachInit (adj : Nat → List Nat) (n a : Nat) : List Nat :=
  (List.range n).filter fun b => decide (b ∈ adj a)

/-- Reachable set after `k` saturation rounds. -/
def iterS (adj : Nat → List Nat) (n a k : Nat) : List Nat :=
  (stepSet adj n)^[k] (reachInit adj n a)

/-- Set of nodes reachable from `a` in one or more steps (computable form):
`n` saturation rounds always suffice on an `n`-node graph. -/
def reachList (adj : Nat → List Nat) (n a : Nat) : List Nat :=
  iterS adj n a n

/-- Decision procedure for `Reaches` on a valid graph. -/
def reachb (adj : Nat → List Nat) (n a b : Nat) : Bool :=
  decide (b ∈ reachList adj n a)

theorem mem_stepSet (adj : Nat → List Nat) (n : Nat) (S : List Nat) (b : Nat) :
    b ∈ stepSet adj n S ↔ b < n ∧ (b ∈ S ∨ ∃ u ∈ S, b ∈ adj u) := by
  simp [stepSet]

theorem mem_reachInit (adj : Nat → List Nat) (n a b : Nat) :
    b ∈ reachInit adj n a ↔ b < n ∧ b ∈ adj a := by
  simp [reachInit]

theorem iterS_succ (adj : Nat → List Nat) (n a k : Nat) :
    iterS adj n a (k + 1) = stepSet adj n (iterS adj n a k) :=
  Function.iterate_succ_apply' (stepSet adj n) k (reachInit adj n a)

theorem iterS_subset_range (adj : Nat → List Nat) (n a k : Nat) :
    ∀ b ∈ iterS adj n a k, b < n := by
  cases k with
  | zero => intro b hb; exact ((mem_reachInit adj n a b).1 hb).1
  | succ k =>
    intro b hb
    rw [iterS_succ] at hb
    exact ((mem_stepSet adj n _ b).1 hb).1

theorem iterS_nodup (adj : Nat → List Nat) (n a k : Nat) :
    (iterS adj n a k).Nodup := by
  cases k with
  | zero => exact (List.nodup_range n).filter _
  | succ k => rw [iterS_succ]; exact (List.nodup_range n).filter _

theorem iterS_mono_succ (adj : Nat → List Nat) (n a k : Nat) :
    iterS adj n a k ⊆ iterS adj n a (k + 1) := by
  intro b hb
  rw [iterS_succ]
  exact (mem_stepSet adj n _ b).2 ⟨iterS_subset_range adj n a k b hb, Or.inl hb⟩

theorem iterS_mono (adj : Nat → List Nat) (n a : Nat) {j k : Nat} (hjk : j ≤ k) :
    iterS adj n a j ⊆ iterS adj n a k := by
  induction hjk with
  | refl => exact fun b hb => hb
  | step _ ih => exact fun b hb => iterS_mono_succ adj n a _ (ih hb)

theorem iterS_length_le (adj : Nat → List Nat) (n a k : Nat) :
    (iterS adj n a k).length ≤ n := by
  have h1 : iterS adj n a k ⊆ List.range n := fun b hb =>
    List.mem_range.2 (iterS_subset_range adj n a k b hb)
  have h2 := ((iterS_nodup adj n a k).subperm h1).length_le
  simpa using h2

theorem stepSet_congr (adj : Nat → List Nat) (n : Nat) (S T : List Nat)
    (h : ∀ x, x ∈ S ↔ x ∈ T) : stepSet adj n S = stepSet adj n T := by
  unfold stepSet
  apply List.filter_congr
  intro b _
  exact decide_eq_decide.2 (by simp only [h])

theorem exists_stable (adj : Nat → List Nat) (n a : Nat) :
    ∃ k, k ≤ n ∧ ∀ x, x ∈ iterS adj n a (k + 1) ↔ x ∈ iterS adj n a k := by
  by_contra hcon
  push_neg at hcon
  have hstrict : ∀ k, k ≤ n →
      (iterS adj n a k).length < (iterS adj n a (k + 1)).length := by
    intro k hk
    obtain ⟨x, hx⟩ := hcon k hk
    have hsub : iterS adj n a k ⊆ iterS adj n a (k + 1) := iterS_mono_succ adj n a k
    have hx1 : x ∈ iterS adj n a (k + 1) ∧ x ∉ iterS adj n a k := by
      rcases hx with ⟨h1, h2⟩ | ⟨h1, h2⟩
      · exact ⟨h1, h2⟩
      · exact absurd (hsub h2) h1
    have hnodup : (x :: iterS adj n a k).Nodup :=
      List.nodup_cons.2 ⟨hx1.2, iterS_nodup adj n a k⟩
    have hsub2 : (x :: iterS adj n a k) ⊆ iterS adj n a (k + 1) := by
      intro y hy
      rcases List.mem_cons.1 hy with rfl | hy
      · exact hx1.1
      · exact hsub hy
    have hle := (hnodup.subperm hsub2).length_le
    simp only [List.length_cons] at hle
    omega
  have hgrow : ∀ j, j ≤ n + 1 → j ≤ (iterS adj n a j).length := by
    intro j
    induction j with
    | zero => intro _; exact Nat.zero_le _
    | succ j ih =>
      intro hj
      have h1 := ih (by omega)
      have h2 := hstrict j (by omega)
      omega
  have h3 := hgrow (n + 1) (le_refl _)
  have h4 := iterS_length_le adj n a (n + 1)
  omega

theorem stable_after (adj : Nat → List Nat) (n a k : Nat)
    (h : ∀ x, x ∈ iterS adj n a (k + 1) ↔ x ∈ iterS adj n a k) :
    ∀ j x, x ∈ iterS adj n a (k + j) ↔ x ∈ iterS adj n a k := by
  intro j
  induction j with
  | zero => intro x; exact Iff.rfl
  | succ j ih =>
    intro x
    have e1 : k + (j + 1) = (k + j) + 1 := rfl
    rw [e1, iterS_succ, stepSet_congr adj n _ _ ih, ← iterS_succ]
    exact h x

theorem mem_iterS_top (adj : Nat → List Nat) (n a m x : Nat)
    (hx : x ∈ iterS adj n a m) : x ∈ iterS adj n a n := by
  obtain ⟨k, hk, hstab⟩ := exists_stable adj n a
  by_cases hmk : m ≤ k
  · exact iterS_mono adj n a (hmk.trans hk) hx
  · have e1 : m = k + (m - k) := by omega
    have h1 : x ∈ iterS adj n a k := by
      rw [e1] at hx
      exact (stable_after adj n a k hstab (m - k) x).1 hx
    exact iterS_mono adj n a hk h1

theorem reaches_of_reachb (adj : Nat → List Nat) (n a b : Nat)
    (h : reachb adj n a b = true) : Reaches adj a b := by
  have hmem : b ∈ reachList adj n a := of_decide_eq_true h
  have main : ∀ (k : Nat) (S : List Nat), (∀ x ∈ S, Reaches adj a x) →
      ∀ c ∈ (stepSet adj n)^[k] S, Reaches adj a c := by
    intro k
    induction k with
    | zero => intro S hS c hc; exact hS c hc
    | succ k ih =>
      intro S hS c hc
      rw [Function.iterate_succ_apply'] at hc
      rcases (mem_stepSet adj n _ c).1 hc with ⟨_, h | ⟨u, hu, hedge⟩⟩
      · exact ih S hS c h
      · exact Relation.TransGen.tail (ih S hS u hu) hedge
  refine main n (reachInit adj n a) ?_ b hmem
  intro x hx
  exact Relation.TransGen.single ((mem_reachInit adj n a x).1 hx).2

theorem reachb_complete (adj : Nat → List Nat) (n a : Nat)
    (hv : ValidAdj n adj) (ha : a < n) (b : Nat) (h : Reaches adj a b) :
    reachb adj n a b = true := by
  have key : ∃ m, b ∈ iterS adj n a m := by
    induction h with
    | single hstep => exact ⟨0, (mem_reachInit adj n a _).2 ⟨hv a ha _ hstep, hstep⟩⟩
    | tail hab hbc ih =>
      obtain ⟨m, hm⟩ := ih
      refine ⟨m + 1, ?_⟩
      rw [iterS_succ]
      refine (mem_stepSet adj n _ _).2 ⟨?_, Or.inr ⟨_, hm, hbc⟩⟩
      exact hv _ (iterS_subset_range adj n a m _ hm) _ hbc
  obtain ⟨m, hm⟩ := key
  exact decide_eq_true (mem_iterS_top adj n a m b hm)

theorem reachb_iff (adj : Nat → List Nat) (n a : Nat)
    (hv : ValidAdj n adj) (ha : a < n) (b : Nat) :
    reachb adj n a b = true ↔ Reaches adj a b :=
  ⟨reaches_of_reachb adj n a b, reachb_complete adj n a hv ha b⟩

theorem reaches_lt (adj : Nat → List Nat) (n a b : Nat)
    (hv : ValidAdj n adj) (ha : a < n) (h : Reaches adj a b) : b < n := by
  have h1 := reachb_complete adj n a hv ha b h
  exact iterS_subset_range adj n a n b (of_decide_eq_true h1)

/-- Mutual reachability (in zero or more steps), i.e. membership in the same
strongly connected component. -/
def Eqv (adj : Nat → List Nat) (a b : Nat) : Prop :=
  a = b ∨ (Reaches adj a b ∧ Reaches adj b a)

/-- Decision procedure for `Eqv` on a valid graph. -/
def eqvb (adj : Nat → List Nat) (n a b : Nat) : Bool :=
  a == b || (reachb adj n a b && reachb adj n b a)

theorem eqvb_iff (adj : Nat → List Nat) (n a b : Nat)
    (hv : ValidAdj n adj) (ha : a < n) (hb : b < n) :
    eqvb adj n a b = true ↔ Eqv adj a b := by
  unfold eqvb Eqv
  simp only [Bool.or_eq_true, Bool.and_eq_true, beq_iff_eq,
    reachb_iff adj n a hv ha, reachb_iff adj n b hv hb]

theorem eqv_refl (adj : Nat → List Nat) (a : Nat) : Eqv adj a a := Or.inl rfl

theorem eqv_symm (adj : Nat → List Nat) (a b : Nat) (h : Eqv adj a b) :
    Eqv adj b a := by
  rcases h with rfl | ⟨h1, h2⟩
  · exact Or.inl rfl
  · exact Or.inr ⟨h2, h1⟩

theorem eqv_trans (adj : Nat → List Nat) (a b c : Nat)
    (h1 : Eqv adj a b) (h2 : Eqv adj b c) : Eqv adj a c := by
  rcases h1 with rfl | ⟨hab, hba⟩
  · exact h2
  · rcases h2 with rfl | ⟨hbc, hcb⟩
    · exact Or.inr ⟨hab, hba⟩
    · exact Or.inr ⟨hab.trans hbc, hcb.trans hba⟩

theorem eqv_reaches (adj : Nat → List Nat) (a b c : Nat)
    (h1 : Eqv adj a b) (h2 : Reaches adj b c) : Reaches adj a c := by
  rcases h1 with rfl | ⟨hab, _⟩
  · exact h2
  · exact hab.trans h2

theorem reaches_eqv (adj : Nat → List Nat) (a b c : Nat)
    (h1 : Reaches adj a b) (h2 : Eqv adj b c) : Reaches adj a c := by
  rcases h2 with rfl | ⟨hbc, _⟩
  · exact h1
  · exact h1.trans hbc

/-- Nodes of the strongly connected component of `a`, in ascending order. -/
def classList (adj : Nat → List Nat) (n a : Nat) : List Nat :=
  (List.range n).filter fun b => eqvb adj n a b

/-- Canonical representative (`root`) of the component of `a`: the smallest
node of the component. -/
def repOf (adj : Nat → List Nat) (n a : Nat) : Nat :=
  (classList adj n a).headD a

/-- Test whether `a` is the canonical representative of its component. -/
def isRepb (adj : Nat → List Nat) (n a : Nat) : Bool :=
  (List.range a).all fun b => !eqvb adj n a b

/-- Canonical representatives of all components, in ascending node order. -/
def reps (adj : Nat → List Nat) (n : Nat) : List Nat :=
  (List.range n).filter fun a => isRepb adj n a

/-- Downward-reachability set of `a`: `a` itself plus everything reachable
from `a`.  Its size orders the components consistently with reachability. -/
def dset (adj : Nat → List Nat) (n a : Nat) : List Nat :=
  (List.range n).filter fun b => a == b || reachb adj n a b

/-- Size of the downward-reachability set. -/
def dcount (adj : Nat → List Nat) (n a : Nat) : Nat :=
  (dset adj n a).length

/-- Total order used to number the components: ascending size of the
downward-reachability set, ties broken by node index.  Any numbering
sorted this way satisfies the global numbering invariant. -/
def keyLe (adj : Nat → List Nat) (n : Nat) (x y : Nat) : Prop :=
  dcount adj n x < dcount adj n y ∨ (dcount adj n x = dcount adj n y ∧ x ≤ y)

instance keyLeDec (adj : Nat → List Nat) (n : Nat) : DecidableRel (keyLe adj n) :=
  fun x y => inferInstanceAs (Decidable (Or _ _))

/-- Component representatives sorted by `keyLe`; the component with index
`i` is the component of `sortedReps[i]`. -/
def sortedReps (adj : Nat → List Nat) (n : Nat) : List Nat :=
  List.insertionSort (keyLe adj n) (reps adj n)

/-- Number of strongly connected components. -/
def numComps (adj : Nat → List Nat) (n : Nat) : Nat :=
  (sortedReps adj n).length

/-- Representative of the component with index `i`. -/
def repAt (adj : Nat → List Nat) (n i : Nat) : Nat :=
  (sortedReps adj n).getD i 0

/-- Component index of the component containing node `a`. -/
def compOf (adj : Nat → List Nat) (n a : Nat) : Nat :=
  (sortedReps adj n).indexOf (repOf adj n a)

theorem mem_classList (adj : Nat → List Nat) (n a x : Nat) :
    x ∈ classList adj n a ↔ x < n ∧ eqvb adj n a x = true := by
  simp [classList]

theorem self_mem_classList (adj : Nat → List Nat) (n a : Nat) (ha : a < n) :
    a ∈ classList adj n a := by
  refine (mem_classList adj n a a).2 ⟨ha, ?_⟩
  simp [eqvb]

theorem repOf_mem_classList (adj : Nat → List Nat) (n a : Nat) (ha : a < n) :
    repOf adj n a ∈ classList adj n a := by
  have hne : classList adj n a ≠ [] := by
    intro h
    exact absurd (h ▸ self_mem_classList adj n a ha) (List.not_mem_nil a)
  unfold repOf
  cases h : classList adj n a with
  | nil => exact absurd h hne
  | cons x xs => simp

theorem repOf_min (adj : Nat → List Nat) (n a : Nat) :
    ∀ x ∈ classList adj n a, repOf adj n a ≤ x := by
  have hpw : (classList adj n a).Pairwise (· < ·) :=
    (List.pairwise_lt_range n).filter _
  unfold repOf
  cases h : classList adj n a with
  | nil => intro x hx; exact absurd hx (List.not_mem_nil x)
  | cons y ys =>
    intro x hx
    rw [h] at hpw
    rcases List.mem_cons.1 hx with rfl | hx
    · simp
    · simpa using Nat.le_of_lt (List.rel_of_pairwise_cons hpw hx)

theorem repOf_lt (adj : Nat → List Nat) (n a : Nat) (ha : a < n) :
    repOf adj n a < n :=
  ((mem_classList adj n a _).1 (repOf_mem_classList adj n a ha)).1

theorem eqv_repOf (adj : Nat → List Nat) (n a : Nat)
    (hv : ValidAdj n adj) (ha : a < n) : Eqv adj a (repOf adj n a) :=
  (eqvb_iff adj n a _ hv ha (repOf_lt adj n a ha)).1
    ((mem_classList adj n a _).1 (repOf_mem_classList adj n a ha)).2

theorem isRepb_iff (adj : Nat → List Nat) (n a : Nat)
    (hv : ValidAdj n adj) (ha : a < n) :
    isRepb adj n a = true ↔ ∀ b, b < a → ¬Eqv adj a b := by
  unfold isRepb
  simp only [List.all_eq_true, List.mem_range, Bool.not_eq_true']
  constructor
  · intro h b hb hEqv
    have hbn : b < n := hb.trans ha
    exact absurd ((eqvb_iff adj n a b hv ha hbn).2 hEqv) (by simp [h b hb])
  · intro h b hb
    have hbn : b < n := hb.trans ha
    rcases Bool.eq_false_or_eq_true (eqvb adj n a b) with ht | hf
    · exact absurd ((eqvb_iff adj n a b hv ha hbn).1 ht) (h b hb)
    · exact hf

theorem repOf_isRep (adj : Nat → List Nat) (n a : Nat)
    (hv : ValidAdj n adj) (ha : a < n) : isRepb adj n (repOf adj n a) = true := by
  set r := repOf adj n a with hr
  have hrn : r < n := repOf_lt adj n a ha
  refine (isRepb_iff adj n r hv hrn).2 ?_
  intro b hb hEqv
  have hbn : b < n := hb.trans hrn
  have hab : Eqv adj a b := eqv_trans adj a r b (eqv_repOf adj n a hv ha) hEqv
  have hbmem : b ∈ classList adj n a :=
    (mem_classList adj n a b).2 ⟨hbn, (eqvb_iff adj n a b hv ha hbn).2 hab⟩
  exact absurd (repOf_min adj n a b hbmem) (by omega)

theorem mem_reps (adj : Nat → List Nat) (n x : Nat) :
    x ∈ reps adj n ↔ x < n ∧ isRepb adj n x = true := by
  simp [reps]

theorem repOf_mem_reps (adj : Nat → List Nat) (n a : Nat)
    (hv : ValidAdj n adj) (ha : a < n) : repOf adj n a ∈ reps adj n :=
  (mem_reps adj n _).2 ⟨repOf_lt adj n a ha, repOf_isRep adj n a hv ha⟩

theorem repOf_of_isRep (adj : Nat → List Nat) (n r : Nat)
    (hv : ValidAdj n adj) (hr : r ∈ reps adj n) : repOf adj n r = r := by
  obtain ⟨hrn, hrep⟩ := (mem_reps adj n r).1 hr
  have h1 : repOf adj n r ≤ r :=
    repOf_min adj n r r (self_mem_classList adj n r hrn)
  rcases Nat.lt_or_ge (repOf adj n r) r with hlt | hge
  · exfalso
    have hEqv : Eqv adj r (repOf adj n r) := eqv_repOf adj n r hv hrn
    exact (isRepb_iff adj n r hv hrn).1 hrep _ hlt hEqv
  · omega

theorem repOf_eq_of_eqv (adj : Nat → List Nat) (n a b : Nat)
    (hv : ValidAdj n adj) (ha : a < n) (hb : b < n) (h : Eqv adj a b) :
    repOf adj n a = repOf adj n b := by
  have hcl : classList adj n a = classList adj n b := by
    unfold classList
    apply List.filter_congr
    intro x hx
    have hxn : x < n := List.mem_range.1 hx
    refine Bool.coe_iff_coe.mp ?_
    show eqvb adj n a x = true ↔ eqvb adj n b x = true
    rw [eqvb_iff adj n a x hv ha hxn, eqvb_iff adj n b x hv hb hxn]
    constructor
    · exact fun hax => eqv_trans adj b a x (eqv_symm adj a b h) hax
    · exact fun hbx => eqv_trans adj a b x h hbx
  have hna : classList adj n a ≠ [] := by
    intro hnil
    exact absurd (hnil ▸ self_mem_classList adj n a ha) (List.not_mem_nil a)
  unfold repOf
  rw [hcl]
  cases hc : classList adj n b with
  | nil => exact absurd (hcl.trans hc) hna
  | cons x xs => simp

theorem reps_nodup (adj : Nat → List Nat) (n : Nat) : (reps adj n).Nodup :=
  (List.nodup_range n).filter _

theorem sortedReps_perm (adj : Nat → List Nat) (n : Nat) :
    List.Perm (sortedReps adj n) (reps adj n) :=
  List.perm_insertionSort (keyLe adj n) (reps adj n)

theorem sortedReps_nodup (adj : Nat → List Nat) (n : Nat) :
    (sortedReps adj n).Nodup :=
  ((sortedReps_perm adj n).nodup_iff).2 (reps_nodup adj n)

theorem mem_sortedReps (adj : Nat → List Nat) (n x : Nat) :
    x ∈ sortedReps adj n ↔ x ∈ reps adj n :=
  (sortedReps_perm adj n).mem_iff

theorem sortedReps_sorted (adj : Nat → List Nat) (n : Nat) :
    List.Sorted (keyLe adj n) (sortedReps adj n) := by
  haveI : IsTotal Nat (keyLe adj n) := ⟨by intro x y; unfold keyLe; omega⟩
  haveI : IsTrans Nat (keyLe adj n) := ⟨by intro x y z; unfold keyLe; omega⟩
  exact List.sorted_insertionSort (keyLe adj n) (reps adj n)

theorem mem_dset (adj : Nat → List Nat) (n a x : Nat) :
    x ∈ dset adj n a ↔ x < n ∧ (a = x ∨ reachb adj n a x = true) := by
  simp [dset]

theorem dcount_lt_of_reaches (adj : Nat → List Nat) (n a b : Nat)
    (hv : ValidAdj n adj) (ha : a < n) (hb : b < n)
    (h : Reaches adj a b) (hne : ¬Eqv adj a b) :
    dcount adj n b < dcount adj n a := by
  have hsub : dset adj n b ⊆ dset adj n a := by
    intro x hx
    rcases (mem_dset adj n b x).1 hx with ⟨hxn, rfl | hbx⟩
    · exact (mem_dset adj n a b).2 ⟨hxn, Or.inr (reachb_complete adj n a hv ha b h)⟩
    · have hax : Reaches adj a x := h.trans (reaches_of_reachb adj n b x hbx)
      exact (mem_dset adj n a x).2 ⟨hxn, Or.inr (reachb_complete adj n a hv ha x hax)⟩
  have hmem : a ∈ dset adj n a := (mem_dset adj n a a).2 ⟨ha, Or.inl rfl⟩
  have hnotmem : a ∉ dset adj n b := by
    intro hmem2
    rcases (mem_dset adj n b a).1 hmem2 with ⟨_, hba | hba⟩
    · exact hne (Or.inl hba.symm)
    · exact hne (Or.inr ⟨h, reaches_of_reachb adj n b a hba⟩)
  have hnodup : (a :: dset adj n b).Nodup :=
    List.nodup_cons.2 ⟨hnotmem, (List.nodup_range n).filter _⟩
  have hsub2 : (a :: dset adj n b) ⊆ dset adj n a := by
    intro y hy
    rcases List.mem_cons.1 hy with rfl | hy
    · exact hmem
    · exact hsub hy
  have hle := (hnodup.subperm hsub2).length_le
  simp only [List.length_cons] at hle
  unfold dcount
  omega

theorem indexOf_lt_of_dcount_lt (adj : Nat → List Nat) (n x y : Nat)
    (hx : x ∈ sortedReps adj n) (hy : y ∈ sortedReps adj n)
    (h : dcount adj n x < dcount adj n y) :
    (sortedReps adj n).indexOf x < (sortedReps adj n).indexOf y := by
  set l := sortedReps adj n with hl
  have hxl : l.indexOf x < l.length := List.indexOf_lt_length.2 hx
  have hyl : l.indexOf y < l.length := List.indexOf_lt_length.2 hy
  rcases Nat.lt_or_ge (l.indexOf x) (l.indexOf y) with hlt | hge
  · exact hlt
  · exfalso
    rcases Nat.eq_or_lt_of_le hge with heq | hlt2
    · have hxy : x = y := by
        have h1 := List.indexOf_get hxl
        have h2 := List.indexOf_get hyl
        rw [← h1, ← h2]
        congr 1
        exact (Fin.ext heq.symm : (⟨l.indexOf x, hxl⟩ : Fin l.length) = ⟨l.indexOf y, hyl⟩)
      rw [hxy] at h
      omega
    · have hrel := (sortedReps_sorted adj n).rel_get_of_lt
        (show (⟨l.indexOf y, hyl⟩ : Fin l.length) < ⟨l.indexOf x, hxl⟩ from hlt2)
      rw [List.indexOf_get hxl, List.indexOf_get hyl] at hrel
      unfold keyLe at hrel
      omega

theorem repAt_mem (adj : Nat → List Nat) (n i : Nat) (hi : i < numComps adj n) :
    repAt adj n i ∈ sortedReps adj n := by
  unfold repAt
  have h1 : (sortedReps adj n).getD i 0 = (sortedReps adj n).get ⟨i, hi⟩ := by
    rw [List.getD_eq_get?, List.get?_eq_get hi]
    rfl
  rw [h1]
  exact List.get_mem _ _ _

theorem repAt_get (adj : Nat → List Nat) (n i : Nat) (hi : i < numComps adj n) :
    repAt adj n i = (sortedReps adj n).get ⟨i, hi⟩ := by
  unfold repAt
  rw [List.getD_eq_get?, List.get?_eq_get hi]
  rfl

theorem repAt_lt (adj : Nat → List Nat) (n i : Nat) (hi : i < numComps adj n) :
    repAt adj n i < n :=
  ((mem_reps adj n _).1 ((mem_sortedReps adj n _).1 (repAt_mem adj n i hi))).1

theorem repAt_inj (adj : Nat → List Nat) (n i j : Nat)
    (hi : i < numComps adj n) (hj : j < numComps adj n)
    (h : repAt adj n i = repAt adj n j) : i = j := by
  rw [repAt_get adj n i hi, repAt_get adj n j hj] at h
  have h2 := ((sortedReps_nodup adj n).get_inj_iff).1 h
  exact congrArg Fin.val h2

theorem indexOf_repAt (adj : Nat → List Nat) (n i : Nat) (hi : i < numComps adj n) :
    (sortedReps adj n).indexOf (repAt adj n i) = i := by
  set l := sortedReps adj n with hl
  have hmem : repAt adj n i ∈ l := repAt_mem adj n i hi
  have hlt : l.indexOf (repAt adj n i) < l.length := List.indexOf_lt_length.2 hmem
  have h1 : l.get ⟨l.indexOf (repAt adj n i), hlt⟩ = l.get ⟨i, hi⟩ :=
    (List.indexOf_get hlt).trans (repAt_get adj n i hi)
  have h2 := ((sortedReps_nodup adj n).get_inj_iff).1 h1
  exact congrArg Fin.val h2

theorem repOf_repAt (adj : Nat → List Nat) (n i : Nat)
    (hv : ValidAdj n adj) (hi : i < numComps adj n) :
    repOf adj n (repAt adj n i) = repAt adj n i :=
  repOf_of_isRep adj n _ hv ((mem_sortedReps adj n _).1 (repAt_mem adj n i hi))

theorem mem_classList_eqv (adj : Nat → List Nat) (n r x : Nat)
    (hv : ValidAdj n adj) (hr : r < n) (hx : x ∈ classList adj n r) :
    x < n ∧ Eqv adj r x := by
  obtain ⟨hxn, he⟩ := (mem_classList adj n r x).1 hx
  exact ⟨hxn, (eqvb_iff adj n r x hv hr hxn).1 he⟩

theorem mem_classList_of_eqv (adj : Nat → List Nat) (n r x : Nat)
    (hv : ValidAdj n adj) (hr : r < n) (hxn : x < n) (h : Eqv adj r x) :
    x ∈ classList adj n r :=
  (mem_classList adj n r x).2 ⟨hxn, (eqvb_iff adj n r x hv hr hxn).2 h⟩

/-- Edge of the condensation graph: between component indices `i` and `j`
of the computed structure there is an edge when some node of component `i`
has a direct edge to some node of component `j`.  Self-loops (`i = j`)
arise exactly for components containing an internal edge (i.e. a cycle),
matching the header note that `next` "may or may not contain itself". -/
def CompEdge (adj : Nat → List Nat) (n i j : Nat) : Prop :=
  i < numComps adj n ∧ j < numComps adj n ∧
    ∃ u ∈ classList adj n (repAt adj n i), ∃ v ∈ adj u,
      v ∈ classList adj n (repAt adj n j)

instance compEdgeDec (adj : Nat → List Nat) (n i j : Nat) :
    Decidable (CompEdge adj n i j) :=
  inferInstanceAs (Decidable (And _ _))

/-- Components directly reachable from component `k` (the condensation
builder's per-component output, cf. spec §4.2). -/
def directSuccs (adj : Nat → List Nat) (n k : Nat) : List Nat :=
  (List.range (numComps adj n)).filter fun j => decide (CompEdge adj n k j)

/-- Closure row for component `k` (spec §4.3): its direct successors plus
the already-closed `next` sets of its strictly smaller direct successors,
materialized as an ascending duplicate-free list bounded by `k`. -/
def rowNext (adj : Nat → List Nat) (n k : Nat) (prev : List (List Nat)) :
    List Nat :=
  (List.range (k + 1)).filter fun j =>
    decide (j ∈ directSuccs adj n k) ||
      (List.range k).any fun d =>
        decide (d ∈ directSuccs adj n k) && decide (j ∈ prev.getD d [])

/-- Table of the closure rows of components `0 .. k-1`, built in the single
ascending pass of spec §4.3. -/
def nextTable (adj : Nat → List Nat) (n : Nat) : Nat → List (List Nat)
  | 0 => []
  | k + 1 => nextTable adj n k ++ [rowNext adj n k (nextTable adj n k)]

/-- Fully closed `next` set of component `i`. -/
def nextSet (adj : Nat → List Nat) (n i : Nat) : List Nat :=
  (nextTable adj n (i + 1)).getD i []

theorem nextTable_length (adj : Nat → List Nat) (n : Nat) :
    ∀ k, (nextTable adj n k).length = k := by
  intro k
  induction k with
  | zero => rfl
  | succ k ih => simp [nextTable, ih]

theorem nextTable_getD (adj : Nat → List Nat) (n : Nat) :
    ∀ k i, i < k →
      (nextTable adj n k).getD i [] = rowNext adj n i (nextTable adj n i) := by
  intro k
  induction k with
  | zero => intro i h; omega
  | succ k ih =>
    intro i hik
    show (nextTable adj n k ++ [rowNext adj n k (nextTable adj n k)]).getD i [] = _
    rcases Nat.lt_or_ge i k with hlt | hge
    · rw [List.getD_eq_getElem?_getD,
        List.getElem?_append_left (by rw [nextTable_length adj n k]; omega),
        ← List.getD_eq_getElem?_getD]
      exact ih i hlt
    · have hik2 : i = k := by omega
      subst hik2
      rw [List.getD_eq_getElem?_getD,
        List.getElem?_append_right (by rw [nextTable_length adj n i]),
        nextTable_length adj n i]
      simp

theorem nextSet_eq (adj : Nat → List Nat) (n i : Nat) :
    nextSet adj n i = rowNext adj n i (nextTable adj n i) :=
  nextTable_getD adj n (i + 1) i (by omega)

theorem mem_directSuccs (adj : Nat → List Nat) (n k j : Nat) :
    j ∈ directSuccs adj n k ↔ j < numComps adj n ∧ CompEdge adj n k j := by
  simp [directSuccs]

theorem mem_nextSet (adj : Nat → List Nat) (n k j : Nat) :
    j ∈ nextSet adj n k ↔ j < k + 1 ∧
      (j ∈ directSuccs adj n k ∨
        ∃ d, d < k ∧ d ∈ directSuccs adj n k ∧ j ∈ nextSet adj n d) := by
  rw [nextSet_eq]
  unfold rowNext
  simp only [List.mem_filter, List.mem_range, Bool.or_eq_true, decide_eq_true_eq,
    List.any_eq_true, Bool.and_eq_true]
  constructor
  · rintro ⟨hj, hd | ⟨d, hdk, hds, hmem⟩⟩
    · exact ⟨hj, Or.inl hd⟩
    · rw [nextTable_getD adj n k d hdk, ← nextSet_eq] at hmem
      exact ⟨hj, Or.inr ⟨d, hdk, hds, hmem⟩⟩
  · rintro ⟨hj, hd | ⟨d, hdk, hds, hmem⟩⟩
    · exact ⟨hj, Or.inl hd⟩
    · refine ⟨hj, Or.inr ⟨d, hdk, hds, ?_⟩⟩
      rw [nextTable_getD adj n k d hdk, ← nextSet_eq adj n d]
      exact hmem

theorem compEdge_le (adj : Nat → List Nat) (n i j : Nat)
    (hv : ValidAdj n adj) (h : CompEdge adj n i j) : j ≤ i := by
  obtain ⟨hi, hj, u, hu, v, hva, hvj⟩ := h
  have hri : repAt adj n i < n := repAt_lt adj n i hi
  have hrj : repAt adj n j < n := repAt_lt adj n j hj
  obtain ⟨hun, hEqvU⟩ := mem_classList_eqv adj n _ u hv hri hu
  obtain ⟨hvn, hEqvV⟩ := mem_classList_eqv adj n _ v hv hrj hvj
  by_cases hEq : Eqv adj (repAt adj n i) (repAt adj n j)
  · have h1 : repOf adj n (repAt adj n i) = repOf adj n (repAt adj n j) :=
      repOf_eq_of_eqv adj n _ _ hv hri hrj hEq
    rw [repOf_repAt adj n i hv hi, repOf_repAt adj n j hv hj] at h1
    exact Nat.le_of_eq (repAt_inj adj n j i hj hi h1.symm)
  · have hR : Reaches adj (repAt adj n i) (repAt adj n j) := by
      have h1 : Reaches adj (repAt adj n i) v :=
        eqv_reaches adj _ u v hEqvU (Relation.TransGen.single hva)
      exact reaches_eqv adj _ v _ h1 (eqv_symm adj _ v hEqvV)
    have hdc : dcount adj n (repAt adj n j) < dcount adj n (repAt adj n i) :=
      dcount_lt_of_reaches adj n _ _ hv hri hrj hR hEq
    have hidx := indexOf_lt_of_dcount_lt adj n _ _
      (repAt_mem adj n j hj) (repAt_mem adj n i hi) hdc
    rw [indexOf_repAt adj n i hi, indexOf_repAt adj n j hj] at hidx
    omega

theorem transGen_compEdge_le (adj : Nat → List Nat) (n i j : Nat)
    (hv : ValidAdj n adj) (h : Relation.TransGen (CompEdge adj n) i j) :
    j ≤ i := by
  induction h with
  | single h1 => exact compEdge_le adj n _ _ hv h1
  | tail _ h2 ih => exact (compEdge_le adj n _ _ hv h2).trans ih

theorem transGen_compEdge_bounds (adj : Nat → List Nat) (n i j : Nat)
    (h : Relation.TransGen (CompEdge adj n) i j) :
    i < numComps adj n ∧ j < numComps adj n := by
  induction h with
  | single h1 => exact ⟨h1.1, h1.2.1⟩
  | tail _ h2 ih => exact ⟨ih.1, h2.2.1⟩

theorem transGen_of_mem_nextSet (adj : Nat → List Nat) (n : Nat) :
    ∀ k j, j ∈ nextSet adj n k → Relation.TransGen (CompEdge adj n) k j := by
  intro k
  induction k using Nat.strong_induction_on with
  | _ k ih =>
    intro j hj
    rcases (mem_nextSet adj n k j).1 hj with ⟨_, hd | ⟨d, hdk, hds, hmem⟩⟩
    · exact Relation.TransGen.single ((mem_directSuccs adj n k j).1 hd).2
    · exact Relation.TransGen.head ((mem_directSuccs adj n k d).1 hds).2
        (ih d hdk j hmem)

theorem mem_nextSet_of_transGen (adj : Nat → List Nat) (n : Nat)
    (hv : ValidAdj n adj) (x j : Nat)
    (h : Relation.TransGen (CompEdge adj n) x j) : j ∈ nextSet adj n x := by
  induction h using Relation.TransGen.head_induction_on with
  | base hedge =>
    have hji := compEdge_le adj n _ j hv hedge
    exact (mem_nextSet adj n _ j).2
      ⟨by omega, Or.inl ((mem_directSuccs adj n _ j).2 ⟨hedge.2.1, hedge⟩)⟩
  | @ih a c hedge _ ihc =>
    have hca : c ≤ a := compEdge_le adj n a c hv hedge
    have hjc : j < c + 1 := ((mem_nextSet adj n c j).1 ihc).1
    rcases Nat.eq_or_lt_of_le hca with heq | hlt
    · rw [← heq]
      exact ihc
    · exact (mem_nextSet adj n a j).2
        ⟨by omega, Or.inr ⟨c, hlt,
          (mem_directSuccs adj n a c).2 ⟨hedge.2.1, hedge⟩, ihc⟩⟩

/-- Modelled from the spec: part of the missing body of
`TransitiveClosure::Compute` — the component record of component `i`
(§4.1 `nodes`; §4.2/§4.3 `next` built by the condensation builder and the
single ascending closure pass; §4.3 `next_flags` as the triangular boolean
row of length `i + 1`, entry `j` true iff `j` is in the closed `next`
set). -/
def componentAt (adj : Nat → List Nat) (n i : Nat) : Component :=
  ⟨classList adj n (repAt adj n i), nextSet adj n i,
    (List.range (i + 1)).map fun j => decide (j ∈ nextSet adj n i)⟩

/-- Modelled from the spec: the body of `TransitiveClosure::Compute` is not
among the repository sources (the header only declares it).  Per the spec it
partitions the nodes `0 .. n-1` into strongly connected components (§4.1),
numbers the components so that reachability implies a smaller-or-equal
index — realised here by the deterministic `keyLe` order, a linear
extension of reverse condensation reachability — records each node's
representative (`root`) and component index, and produces the transitively
closed per-component successor data (§4.2, §4.3). -/
def Compute (n : Nat) (adj : Nat → List Nat) : Data :=
  ⟨(List.range n).map fun a => ⟨repOf adj n a, compOf adj n a⟩,
    (List.range (numComps adj n)).map fun i => componentAt adj n i⟩

/-- Modelled from the spec: the body of
`Data::FindUnorderedComponentPairs` is not among the repository sources.
Per the header comment and spec §4.4 it visits every pair of component
indices `a < b`, counts those for which neither `IsNext(a, b)` nor
`IsNext(b, a)` holds (invoking the optional callback on each), and
returns the count.  The callback performs no mutation, so only the count
is modelled. -/
def FindUnorderedComponentPairs (d : Data) : Nat :=
  ((List.range d.components.length).map fun b =>
    ((List.range b).filter fun a =>
      !(d.components.getD a default).IsNext b &&
        !(d.components.getD b default).IsNext a).length).sum

/-- Modelled from the spec: the body of `Data::FindComponentsWithCycles`
is not among the repository sources.  Per the header comment and spec §4.4
it counts every component with a cycle — more than one node, or a single
node with an edge to itself (invoking the optional callback on each).
The member function sees only the finished `Data`, where a component has
an internal cycle exactly when it reaches itself, i.e. `IsNext i`; the
multi-node test mirrors the documented `>1 node` condition. -/
def FindComponentsWithCycles (d : Data) : Nat :=
  ((List.range d.components.length).filter fun i =>
    decide (1 < (d.components.getD i default).nodes.length) ||
      (d.components.getD i default).IsNext i).length

instance validAdjDec (n : Nat) (adj : Nat → List Nat) :
    Decidable (ValidAdj n adj) :=
  inferInstanceAs (Decidable (∀ a, a < n → ∀ b, b ∈ adj a → b < n))

instance ascendingDec (n : Nat) (adj : Nat → List Nat) :
    Decidable (Ascending n adj) :=
  inferInstanceAs (Decidable (∀ a, a < n → (adj a).Pairwise (· < ·)))

theorem compute_components_length (n : Nat) (adj : Nat → List Nat) :
    (Compute n adj).components.length = numComps adj n := by
  simp [Compute]

theorem compute_nodes_length (n : Nat) (adj : Nat → List Nat) :
    (Compute n adj).nodes.length = n := by
  simp [Compute]

theorem compute_components_getD (n : Nat) (adj : Nat → List Nat) (i : Nat)
    (hi : i < numComps adj n) :
    (Compute n adj).components.getD i default = componentAt adj n i := by
  unfold Compute
  rw [List.getD_eq_getElem?_getD, List.getElem?_map, List.getElem?_range hi]
  rfl

theorem isNext_componentAt (adj : Nat → List Nat) (n i j : Nat) :
    (componentAt adj n i).IsNext j = true ↔ j ≤ i ∧ j ∈ nextSet adj n i := by
  unfold componentAt Component.IsNext
  simp only [Bool.and_eq_true, decide_eq_true_eq, List.length_map,
    List.length_range]
  constructor
  · rintro ⟨hj, hflag⟩
    rw [List.getD_eq_getElem?_getD, List.getElem?_map, List.getElem?_range hj] at hflag
    simp only [Option.map_some', Option.getD_some, decide_eq_true_eq] at hflag
    exact ⟨by omega, hflag⟩
  · rintro ⟨hj, hmem⟩
    have hj1 : j < i + 1 := by omega
    refine ⟨hj1, ?_⟩
    rw [List.getD_eq_getElem?_getD, List.getElem?_map, List.getElem?_range hj1]
    exact decide_eq_true hmem

theorem comp_le_of_reaches (adj : Nat → List Nat) (n i j u v : Nat)
    (hv : ValidAdj n adj) (hi : i < numComps adj n) (hj : j < numComps adj n)
    (hu : u ∈ classList adj n (repAt adj n i))
    (hvm : v ∈ classList adj n (repAt adj n j))
    (hr : Reaches adj u v) : j ≤ i := by
  have hri : repAt adj n i < n := repAt_lt adj n i hi
  have hrj : repAt adj n j < n := repAt_lt adj n j hj
  obtain ⟨hun, hEqvU⟩ := mem_classList_eqv adj n _ u hv hri hu
  obtain ⟨hvn, hEqvV⟩ := mem_classList_eqv adj n _ v hv hrj hvm
  by_cases hEq : Eqv adj (repAt adj n i) (repAt adj n j)
  · have h1 : repOf adj n (repAt adj n i) = repOf adj n (repAt adj n j) :=
      repOf_eq_of_eqv adj n _ _ hv hri hrj hEq
    rw [repOf_repAt adj n i hv hi, repOf_repAt adj n j hv hj] at h1
    exact Nat.le_of_eq (repAt_inj adj n j i hj hi h1.symm)
  · have hR : Reaches adj (repAt adj n i) (repAt adj n j) := by
      have h1 : Reaches adj (repAt adj n i) v := eqv_reaches adj _ u v hEqvU hr
      exact reaches_eqv adj _ v _ h1 (eqv_symm adj _ v hEqvV)
    have hdc : dcount adj n (repAt adj n j) < dcount adj n (repAt adj n i) :=
      dcount_lt_of_reaches adj n _ _ hv hri hrj hR hEq
    have hidx := indexOf_lt_of_dcount_lt adj n _ _
      (repAt_mem adj n j hj) (repAt_mem adj n i hi) hdc
    rw [indexOf_repAt adj n i hi, indexOf_repAt adj n j hj] at hidx
    omega

theorem repAt_compOf (adj : Nat → List Nat) (n a : Nat)
    (hv : ValidAdj n adj) (ha : a < n) :
    repAt adj n (compOf adj n a) = repOf adj n a := by
  have hmem : repOf adj n a ∈ sortedReps adj n :=
    (mem_sortedReps adj n _).2 (repOf_mem_reps adj n a hv ha)
  have hlt : (sortedReps adj n).indexOf (repOf adj n a) < numComps adj n :=
    List.indexOf_lt_length.2 hmem
  unfold compOf
  rw [repAt_get adj n _ hlt]
  exact List.indexOf_get _

theorem compOf_lt (adj : Nat → List Nat) (n a : Nat)
    (hv : ValidAdj n adj) (ha : a < n) : compOf adj n a < numComps adj n :=
  List.indexOf_lt_length.2
    ((mem_sortedReps adj n _).2 (repOf_mem_reps adj n a hv ha))

/-- Concrete example graph for the witnesses: `0 → 1 → 2` on three nodes. -/
def adjChain : Nat → List Nat := fun a =>
  if a = 0 then [1] else if a = 1 then [2] else []

/-- Concrete example graph for the witnesses: the cycle `0 → 1 → 2 → 0`. -/
def adjCycle : Nat → List Nat := fun a =>
  if a = 0 then [1] else if a = 1 then [2] else if a = 2 then [0] else []

/-- Concrete example graph for the witnesses: a self-loop `0 → 0` plus the
isolated node `1` (spec Scenario 3). -/
def adjLoop : Nat → List Nat := fun a => if a = 0 then [0] else []

/-- C1: numbering invariant — for every graph given to `Compute` (node count
`n` and in-range, ascending-order edge callback) and components `i` and `j`
of the returned `Data`, if component `j` is reachable from component `i` in
the original graph (some node of `i` reaches some node of `j` in one or
more steps), then `j ≤ i`. -/
theorem compute_numbering_invariant (n : Nat) (adj : Nat → List Nat)
    (hv : ValidAdj n adj) (hasc : Ascending n adj) (i j u v : Nat)
    (hi : i < (Compute n adj).components.length)
    (hj : j < (Compute n adj).components.length)
    (hu : u ∈ ((Compute n adj).components.getD i default).nodes)
    (hw : v ∈ ((Compute n adj).components.getD j default).nodes)
    (hr : Reaches adj u v) : j ≤ i := by
  rw [compute_components_length] at hi hj
  rw [compute_components_getD n adj i hi] at hu
  rw [compute_components_getD n adj j hj] at hw
  exact comp_le_of_reaches adj n i j u v hv hi hj hu hw hr

theorem compute_numbering_invariant_witness : (0 : Nat) ≤ 2 :=
  compute_numbering_invariant 3 adjChain (by decide) (by decide) 2 0 0 2
    (by decide) (by decide) (by decide) (by decide)
    (Relation.TransGen.tail
      (Relation.TransGen.single (by decide : (1 : Nat) ∈ adjChain 0))
      (by decide : (2 : Nat) ∈ adjChain 1))

/-- C2: closure correctness — for components `i` and `j` of the returned
`Data`, `IsNext` of component `i` at `j` is true iff `j` is reachable from
`i` in the condensation graph by a path of one or more condensation edges
(so `i`'s own index is included exactly when condensation edges cycle back
to `i`, which happens exactly for components with an internal cycle). -/
theorem compute_closure_correct (n : Nat) (adj : Nat → List Nat)
    (hv : ValidAdj n adj) (hasc : Ascending n adj) (i j : Nat)
    (hi : i < (Compute n adj).components.length)
    (hj : j < (Compute n adj).components.length) :
    ((Compute n adj).components.getD i default).IsNext j = true ↔
      Relation.TransGen (CompEdge adj n) i j := by
  rw [compute_components_length] at hi hj
  rw [compute_components_getD n adj i hi, isNext_componentAt]
  constructor
  · rintro ⟨_, hmem⟩
    exact transGen_of_mem_nextSet adj n i j hmem
  · intro h
    exact ⟨transGen_compEdge_le adj n i j hv h,
      mem_nextSet_of_transGen adj n hv i j h⟩

theorem compute_closure_correct_witness :
    ((Compute 3 adjChain).components.getD 2 default).IsNext 0 = true ↔
      Relation.TransGen (CompEdge adjChain 3) 2 0 :=
  compute_closure_correct 3 adjChain (by decide) (by decide) 2 0
    (by decide) (by decide)

/-- C3: partition completeness — every node index in `[0, n)` appears in
the `nodes` list of exactly one component of the returned `Data`, and every
component's `nodes` list is non-empty. -/
theorem compute_partition (n : Nat) (adj : Nat → List Nat)
    (hv : ValidAdj n adj) (hasc : Ascending n adj) :
    (∀ a, a < n → ∃! i, i < (Compute n adj).components.length ∧
        a ∈ ((Compute n adj).components.getD i default).nodes) ∧
      ∀ i, i < (Compute n adj).components.length →
        ((Compute n adj).components.getD i default).nodes ≠ [] := by
  constructor
  · intro a ha
    refine ⟨compOf adj n a, ⟨?_, ?_⟩, ?_⟩
    · rw [compute_components_length]
      exact compOf_lt adj n a hv ha
    · rw [compute_components_getD n adj _ (compOf_lt adj n a hv ha)]
      show a ∈ classList adj n (repAt adj n (compOf adj n a))
      rw [repAt_compOf adj n a hv ha]
      exact mem_classList_of_eqv adj n _ a hv (repOf_lt adj n a ha) ha
        (eqv_symm adj a _ (eqv_repOf adj n a hv ha))
    · rintro j ⟨hjl, hjm⟩
      rw [compute_components_length] at hjl
      rw [compute_components_getD n adj j hjl] at hjm
      have hjm2 : a ∈ classList adj n (repAt adj n j) := hjm
      have hrj : repAt adj n j < n := repAt_lt adj n j hjl
      obtain ⟨_, hEqv⟩ := mem_classList_eqv adj n _ a hv hrj hjm2
      have h1 : repOf adj n (repAt adj n j) = repOf adj n a :=
        repOf_eq_of_eqv adj n _ a hv hrj ha hEqv
      rw [repOf_repAt adj n j hv hjl] at h1
      have h2 : repAt adj n j = repAt adj n (compOf adj n a) := by
        rw [repAt_compOf adj n a hv ha]
        exact h1
      exact repAt_inj adj n j (compOf adj n a) hjl
        (compOf_lt adj n a hv ha) h2
  · intro i hi
    rw [compute_components_length] at hi
    rw [compute_components_getD n adj i hi]
    intro hnil
    have hmem : repAt adj n i ∈ classList adj n (repAt adj n i) :=
      self_mem_classList adj n _ (repAt_lt adj n i hi)
    rw [show (componentAt adj n i).nodes = classList adj n (repAt adj n i) from rfl] at hnil
    rw [hnil] at hmem
    exact List.not_mem_nil _ hmem

theorem compute_partition_witness :
    ∃! i, i < (Compute 3 adjChain).components.length ∧
      0 ∈ ((Compute 3 adjChain).components.getD i default).nodes :=
  (compute_partition 3 adjChain (by decide) (by decide)).1 0 (by decide)

/-- C4: SCC correctness — any two distinct nodes in the same component of
the returned `Data` reach each other via one or more edges of the original
graph, and no two distinct components are mutually reachable. -/
theorem compute_scc_correct (n : Nat) (adj : Nat → List Nat)
    (hv : ValidAdj n adj) (hasc : Ascending n adj) :
    (∀ i, i < (Compute n adj).components.length →
      ∀ x ∈ ((Compute n adj).components.getD i default).nodes,
        ∀ y ∈ ((Compute n adj).components.getD i default).nodes,
          x ≠ y → Reaches adj x y) ∧
      ∀ i j, i < (Compute n adj).components.length →
        j < (Compute n adj).components.length → i ≠ j →
        ¬((∃ u ∈ ((Compute n adj).components.getD i default).nodes,
            ∃ v ∈ ((Compute n adj).components.getD j default).nodes,
              Reaches adj u v) ∧
          (∃ u ∈ ((Compute n adj).components.getD j default).nodes,
            ∃ v ∈ ((Compute n adj).components.getD i default).nodes,
              Reaches adj u v)) := by
  constructor
  · intro i hi x hx y hy hne
    rw [compute_components_length] at hi
    rw [compute_components_getD n adj i hi] at hx hy
    have hri : repAt adj n i < n := repAt_lt adj n i hi
    obtain ⟨hxn, hEx⟩ := mem_classList_eqv adj n _ x hv hri hx
    obtain ⟨hyn, hEy⟩ := mem_classList_eqv adj n _ y hv hri hy
    have hxy : Eqv adj x y := eqv_trans adj x _ y (eqv_symm adj _ x hEx) hEy
    rcases hxy with heq | ⟨h1, _⟩
    · exact absurd heq hne
    · exact h1
  · intro i j hi hj hne ⟨⟨u, hu, v, hvm, huv⟩, ⟨w, hw, z, hz, hwz⟩⟩
    rw [compute_components_length] at hi hj
    rw [compute_components_getD n adj i hi] at hu hz
    rw [compute_components_getD n adj j hj] at hvm hw
    have h1 : j ≤ i := comp_le_of_reaches adj n i j u v hv hi hj hu hvm huv
    have h2 : i ≤ j := comp_le_of_reaches adj n j i w z hv hj hi hw hz hwz
    omega

theorem compute_scc_correct_witness : Reaches adjCycle 0 1 :=
  (compute_scc_correct 3 adjCycle (by decide) (by decide)).1 0 (by decide)
    0 (by decide) 1 (by decide) (by decide)

/-- C8: triangular-table shape — component `i` of the returned `Data` has
exactly `i + 1` entries in `next_flags`, entry `j` is true iff `j` appears
in the component's `next` list, and `next` has no duplicates. -/
theorem compute_next_flags_shape (n : Nat) (adj : Nat → List Nat) (i : Nat)
    (hi : i < (Compute n adj).components.length) :
    ((Compute n adj).components.getD i default).next_flags.length = i + 1 ∧
      (∀ j, j ≤ i →
        (((Compute n adj).components.getD i default).next_flags.getD j false = true ↔
          j ∈ ((Compute n adj).components.getD i default).next)) ∧
      ((Compute n adj).components.getD i default).next.Nodup := by
  rw [compute_components_length] at hi
  rw [compute_components_getD n adj i hi]
  refine ⟨by simp [componentAt], ?_, ?_⟩
  · intro j hj
    have hj1 : j < i + 1 := by omega
    show ((List.range (i + 1)).map fun j =>
        decide (j ∈ nextSet adj n i)).getD j false = true ↔ j ∈ nextSet adj n i
    rw [List.getD_eq_getElem?_getD, List.getElem?_map, List.getElem?_range hj1]
    simp
  · show (nextSet adj n i).Nodup
    rw [nextSet_eq]
    exact (List.nodup_range (i + 1)).filter _

theorem compute_next_flags_shape_witness :
    ((Compute 3 adjChain).components.getD 2 default).next_flags.length = 2 + 1 :=
  (compute_next_flags_shape 3 adjChain 2 (by decide)).1

theorem isNext_transGen_iff (n : Nat) (adj : Nat → List Nat)
    (hv : ValidAdj n adj) (i j : Nat) (hi : i < numComps adj n) :
    ((Compute n adj).components.getD i default).IsNext j = true ↔
      Relation.TransGen (CompEdge adj n) i j := by
  rw [compute_components_getD n adj i hi, isNext_componentAt]
  constructor
  · rintro ⟨_, hmem⟩
    exact transGen_of_mem_nextSet adj n i j hmem
  · intro h
    exact ⟨transGen_compEdge_le adj n i j hv h,
      mem_nextSet_of_transGen adj n hv i j h⟩

theorem transGen_compEdge_self_iff (adj : Nat → List Nat) (n i : Nat)
    (hv : ValidAdj n adj) :
    Relation.TransGen (CompEdge adj n) i i ↔ CompEdge adj n i i := by
  constructor
  · intro h
    obtain ⟨c, hic, hci⟩ := Relation.TransGen.head'_iff.1 h
    rcases Relation.reflTransGen_iff_eq_or_transGen.1 hci with heq | htg
    · rw [← heq] at hic
      exact hic
    · have h1 : c ≤ i := compEdge_le adj n i c hv hic
      have h2 : i ≤ c := transGen_compEdge_le adj n c i hv htg
      have hci2 : c = i := by omega
      rw [hci2] at hic
      exact hic
  · exact Relation.TransGen.single

theorem compEdge_self_of_two (adj : Nat → List Nat) (n i : Nat)
    (hv : ValidAdj n adj) (hi : i < numComps adj n)
    (hlen : 1 < (classList adj n (repAt adj n i)).length) :
    CompEdge adj n i i := by
  have hri : repAt adj n i < n := repAt_lt adj n i hi
  have hnodup : (classList adj n (repAt adj n i)).Nodup :=
    (List.nodup_range n).filter _
  obtain ⟨x, y, hxy, hx, hy⟩ :
      ∃ x y, x ≠ y ∧ x ∈ classList adj n (repAt adj n i) ∧
        y ∈ classList adj n (repAt adj n i) := by
    rcases hl : classList adj n (repAt adj n i) with _ | ⟨x, t⟩
    · rw [hl] at hlen; simp at hlen
    · rcases ht : t with _ | ⟨y, t2⟩
      · rw [ht] at hl; rw [hl] at hlen; simp at hlen
      · rw [ht] at hl
        rw [hl] at hnodup
        have hne : x ≠ y := by
          intro heq
          have hnm := (List.nodup_cons.1 hnodup).1
          rw [heq] at hnm
          exact hnm (List.mem_cons_self y t2)
        refine ⟨x, y, hne, ?_, ?_⟩
        · exact List.mem_cons_self x _
        · exact List.mem_cons_of_mem x (List.mem_cons_self y t2)
  obtain ⟨hxn, hEx⟩ := mem_classList_eqv adj n _ x hv hri hx
  obtain ⟨hyn, hEy⟩ := mem_classList_eqv adj n _ y hv hri hy
  have hExy : Eqv adj x y := eqv_trans adj x _ y (eqv_symm adj _ x hEx) hEy
  rcases hExy with heq | ⟨hxy1, hyx1⟩
  · exact absurd heq hxy
  · obtain ⟨w, hxw, hwy⟩ := Relation.TransGen.head'_iff.1 hxy1
    have hwx : Reaches adj w x := Relation.TransGen.trans_right hwy hyx1
    have hEw : Eqv adj (repAt adj n i) w :=
      eqv_trans adj _ x w hEx (Or.inr ⟨Relation.TransGen.single hxw, hwx⟩)
    have hwn : w < n := hv x hxn w hxw
    exact ⟨hi, hi, x, hx, w, hxw,
      mem_classList_of_eqv adj n _ w hv hri hwn hEw⟩

theorem compEdge_self_singleton (adj : Nat → List Nat) (n i u : Nat)
    (hi : i < numComps adj n)
    (hl : classList adj n (repAt adj n i) = [u]) :
    CompEdge adj n i i ↔ u ∈ adj u := by
  constructor
  · rintro ⟨_, _, x, hx, v, hedge, hvm⟩
    rw [hl] at hx hvm
    have hx2 : x = u := by simpa using hx
    have hv2 : v = u := by simpa using hvm
    rw [hx2, hv2] at hedge
    exact hedge
  · intro h
    exact ⟨hi, hi, u, by rw [hl]; exact List.mem_cons_self u [],
      u, h, by rw [hl]; exact List.mem_cons_self u []⟩

theorem length_filter_or_disjoint (l : List Nat) (p q : Nat → Bool)
    (hdisj : ∀ x ∈ l, ¬(p x = true ∧ q x = true)) :
    (l.filter fun x => p x || q x).length
      = (l.filter p).length + (l.filter q).length := by
  induction l with
  | nil => rfl
  | cons a t ih =>
    have hd := hdisj a (List.mem_cons_self a t)
    have ih2 := ih fun x hx => hdisj x (List.mem_cons_of_mem a hx)
    cases hp : p a <;> cases hq : q a
    · simp [List.filter_cons, hp, hq, ih2]
    · simp [List.filter_cons, hp, hq, ih2]
      omega
    · simp [List.filter_cons, hp, hq, ih2]
      omega
    · exact absurd ⟨hp, hq⟩ hd

/-- C6: `FindComponentsWithCycles` returns the number of components whose
`nodes` list has more than one element plus the number of singleton
components whose sole node carries a direct self-loop edge in the original
graph. -/
theorem find_components_with_cycles_correct (n : Nat) (adj : Nat → List Nat)
    (hv : ValidAdj n adj) (hasc : Ascending n adj) :
    FindComponentsWithCycles (Compute n adj) =
      ((List.range (Compute n adj).components.length).filter fun i =>
        decide (1 < ((Compute n adj).components.getD i default).nodes.length)).length
      + ((List.range (Compute n adj).components.length).filter fun i =>
          match ((Compute n adj).components.getD i default).nodes with
          | [u] => decide (u ∈ adj u)
          | _ => false).length := by
  unfold FindComponentsWithCycles
  rw [← length_filter_or_disjoint]
  · apply congrArg
    apply List.filter_congr
    intro i hmem
    have hi : i < numComps adj n := by
      rw [← compute_components_length n adj]
      exact List.mem_range.1 hmem
    rw [compute_components_getD n adj i hi]
    have hnodes : (componentAt adj n i).nodes = classList adj n (repAt adj n i) := rfl
    rw [hnodes]
    rcases hl : classList adj n (repAt adj n i) with _ | ⟨x, t⟩
    · exfalso
      have hm := self_mem_classList adj n (repAt adj n i) (repAt_lt adj n i hi)
      rw [hl] at hm
      exact List.not_mem_nil _ hm
    · rcases ht : t with _ | ⟨y, t2⟩
      · rw [ht] at hl
        have hlt : ¬(1 < ([x] : List Nat).length) := by simp
        rw [decide_eq_false hlt, Bool.false_or, Bool.false_or]
        show (componentAt adj n i).IsNext i = decide (x ∈ adj x)
        apply Bool.coe_iff_coe.mp
        show (componentAt adj n i).IsNext i = true ↔ decide (x ∈ adj x) = true
        rw [isNext_componentAt, decide_eq_true_eq]
        constructor
        · rintro ⟨_, hmemn⟩
          exact (compEdge_self_singleton adj n i x hi hl).1
            ((transGen_compEdge_self_iff adj n i hv).1
              (transGen_of_mem_nextSet adj n i i hmemn))
        · intro h
          exact ⟨le_refl i, mem_nextSet_of_transGen adj n hv i i
            (Relation.TransGen.single
              ((compEdge_self_singleton adj n i x hi hl).2 h))⟩
      · have hlt : 1 < ((x :: y :: t2) : List Nat).length := by simp
        rw [decide_eq_true hlt, Bool.true_or, Bool.true_or]
  · intro i _
    rintro ⟨hp, hq⟩
    rcases hl : ((Compute n adj).components.getD i default).nodes with _ | ⟨u, t⟩
    · rw [hl] at hq
      simp at hq
    · rcases ht : t with _ | ⟨y, t2⟩
      · rw [hl, ht] at hp
        simp at hp
      · rw [hl, ht] at hq
        simp at hq

theorem find_components_with_cycles_correct_witness :
    FindComponentsWithCycles (Compute 2 adjLoop) = 1 :=
  (find_components_with_cycles_correct 2 adjLoop (by decide) (by decide)).trans
    (by decide)

/-- Reachability in the condensation graph (zero or more condensation
edges). -/
def CondReach (adj : Nat → List Nat) (n a b : Nat) : Prop :=
  Relation.ReflTransGen (CompEdge adj n) a b

theorem natList_sum_eq_zero (l : List Nat) : l.sum = 0 ↔ ∀ x ∈ l, x = 0 := by
  induction l with
  | nil => simp
  | cons a t ih =>
    rw [List.sum_cons]
    constructor
    · intro h
      have ha : a = 0 ∧ t.sum = 0 := by omega
      intro x hx
      rcases List.mem_cons.1 hx with rfl | hx
      · exact ha.1
      · exact (ih.1 ha.2) x hx
    · intro h
      have h1 := h a (List.mem_cons_self a t)
      have h2 : t.sum = 0 := ih.2 fun x hx => h x (List.mem_cons_of_mem a hx)
      omega

theorem range_map_sum (m : Nat) (g : Nat → Nat) :
    ((List.range m).map g).sum = ∑ b ∈ Finset.range m, g b := by
  induction m with
  | zero => rfl
  | succ m ih =>
    rw [List.range_succ, List.map_append, List.sum_append, Finset.sum_range_succ, ih]
    simp

theorem range_filter_length (b : Nat) (p : Nat → Bool) :
    ((List.range b).filter p).length
      = ((Finset.range b).filter fun a => p a = true).card := by
  induction b with
  | zero => rfl
  | succ b ih =>
    rw [List.range_succ, List.filter_append, List.length_append, Finset.range_succ,
      Finset.filter_insert]
    have hnm : b ∉ (Finset.range b).filter fun a => p a = true := by
      intro hmem
      have := Finset.mem_range.1 (Finset.mem_filter.1 hmem).1
      omega
    cases hp : p b
    · simp [hp, ih]
    · simp [hp, ih, Finset.card_insert_of_not_mem hnm]

theorem card_product_filter_lt (m : Nat) (P : Nat → Nat → Prop)
    [hdec : ∀ a b, Decidable (P a b)] :
    ((Finset.range m ×ˢ Finset.range m).filter fun p =>
        p.1 < p.2 ∧ P p.1 p.2).card
      = ∑ b ∈ Finset.range m, ((Finset.range b).filter fun a => P a b).card := by
  rw [Finset.card_filter, Finset.sum_product_right]
  apply Finset.sum_congr rfl
  intro b hb
  rw [Finset.card_filter]
  have hbm : b < m := Finset.mem_range.1 hb
  have hset : (Finset.range m).filter (fun a => a < b) = Finset.range b := by
    apply Finset.ext
    intro a
    simp only [Finset.mem_filter, Finset.mem_range]
    omega
  rw [← hset, Finset.sum_filter]
  apply Finset.sum_congr rfl
  intro a _
  by_cases h1 : a < b
  · by_cases h2 : P a b
    · simp [h1, h2]
    · simp [h1, h2]
  · simp [h1]

/-- C5: `FindUnorderedComponentPairs` returns the number of pairs `(a, b)`
with `a < b` for which neither `IsNext(a, b)` nor `IsNext(b, a)` holds;
it returns `0` iff the condensation graph's reachability relation is a
total order over the components (reachability is always antisymmetric and
transitive, so the count is zero exactly when it is additionally total). -/
theorem find_unordered_pairs_correct (n : Nat) (adj : Nat → List Nat)
    (hv : ValidAdj n adj) (hasc : Ascending n adj) :
    (FindUnorderedComponentPairs (Compute n adj) =
        ((Finset.range (Compute n adj).components.length ×ˢ
            Finset.range (Compute n adj).components.length).filter fun p =>
          p.1 < p.2 ∧
            ((Compute n adj).components.getD p.1 default).IsNext p.2 = false ∧
            ((Compute n adj).components.getD p.2 default).IsNext p.1 = false).card) ∧
      ((FindUnorderedComponentPairs (Compute n adj) = 0 ↔
          ∀ a b, a < (Compute n adj).components.length →
            b < (Compute n adj).components.length →
            CondReach adj n a b ∨ CondReach adj n b a) ∧
        (∀ a b, CondReach adj n a b → CondReach adj n b a → a = b) ∧
        (∀ a b c, CondReach adj n a b → CondReach adj n b c → CondReach adj n a c)) := by
  have hzero : FindUnorderedComponentPairs (Compute n adj) = 0 ↔
      ∀ b, b < (Compute n adj).components.length → ∀ a, a < b →
        (((Compute n adj).components.getD a default).IsNext b = true ∨
          ((Compute n adj).components.getD b default).IsNext a = true) := by
    unfold FindUnorderedComponentPairs
    rw [natList_sum_eq_zero]
    constructor
    · intro h b hb a hab
      have h1 := h _ (List.mem_map_of_mem _ (List.mem_range.2 hb))
      have h2 := List.filter_eq_nil_iff.1 (List.length_eq_zero.1 h1) a
        (List.mem_range.2 hab)
      rcases Bool.eq_false_or_eq_true
          (((Compute n adj).components.getD a default).IsNext b) with h3 | h3
      · exact Or.inl h3
      · rcases Bool.eq_false_or_eq_true
            (((Compute n adj).components.getD b default).IsNext a) with h4 | h4
        · exact Or.inr h4
        · exfalso
          apply h2
          rw [h3, h4]
          rfl
    · intro h x hx
      obtain ⟨b, hbmem, rfl⟩ := List.mem_map.1 hx
      apply List.length_eq_zero.2
      apply List.filter_eq_nil_iff.2
      intro a hamem
      have hb := List.mem_range.1 hbmem
      have hab := List.mem_range.1 hamem
      rcases h b hb a hab with h1 | h1
      · rw [h1]
        simp
      · rw [h1]
        simp
  refine ⟨?_, ?_, ?_, ?_⟩
  · unfold FindUnorderedComponentPairs
    rw [range_map_sum, card_product_filter_lt (Compute n adj).components.length
      fun a b => ((Compute n adj).components.getD a default).IsNext b = false ∧
        ((Compute n adj).components.getD b default).IsNext a = false]
    apply Finset.sum_congr rfl
    intro b _
    rw [range_filter_length]
    apply congrArg
    apply Finset.filter_congr
    intro a _
    simp [Bool.and_eq_true, Bool.not_eq_true']
  · rw [hzero]
    constructor
    · intro h a b ha hb
      rcases Nat.lt_trichotomy a b with hlt | heq | hgt
      · rcases h b hb a hlt with h1 | h1
        · exact Or.inl (Relation.TransGen.to_reflTransGen
            ((isNext_transGen_iff n adj hv a b
              (by rw [← compute_components_length n adj]; exact ha)).1 h1))
        · exact Or.inr (Relation.TransGen.to_reflTransGen
            ((isNext_transGen_iff n adj hv b a
              (by rw [← compute_components_length n adj]; exact hb)).1 h1))
      · exact Or.inl (heq ▸ Relation.ReflTransGen.refl)
      · rcases h a ha b hgt with h1 | h1
        · exact Or.inr (Relation.TransGen.to_reflTransGen
            ((isNext_transGen_iff n adj hv b a
              (by rw [← compute_components_length n adj]; exact hb)).1 h1))
        · exact Or.inl (Relation.TransGen.to_reflTransGen
            ((isNext_transGen_iff n adj hv a b
              (by rw [← compute_components_length n adj]; exact ha)).1 h1))
    · intro h b hb a hab
      have ha : a < (Compute n adj).components.length := lt_trans hab hb
      rcases h a b ha hb with h1 | h1
      · rcases Relation.reflTransGen_iff_eq_or_transGen.1 h1 with heq | ht
        · omega
        · exact Or.inl ((isNext_transGen_iff n adj hv a b
            (by rw [← compute_components_length n adj]; exact ha)).2 ht)
      · rcases Relation.reflTransGen_iff_eq_or_transGen.1 h1 with heq | ht
        · omega
        · exact Or.inr ((isNext_transGen_iff n adj hv b a
            (by rw [← compute_components_length n adj]; exact hb)).2 ht)
  · intro a b h1 h2
    rcases Relation.reflTransGen_iff_eq_or_transGen.1 h1 with heq | ht1
    · exact heq.symm
    · rcases Relation.reflTransGen_iff_eq_or_transGen.1 h2 with heq2 | ht2
      · exact heq2
      · have hba := transGen_compEdge_le adj n a b hv ht1
        have hab := transGen_compEdge_le adj n b a hv ht2
        omega
  · exact fun a b c h1 h2 => h1.trans h2

theorem find_unordered_pairs_correct_witness :
    FindUnorderedComponentPairs (Compute 3 adjChain) = 0 :=
  ((find_unordered_pairs_correct 3 adjChain (by decide) (by decide)).1).trans
    (by decide)

end TransitiveClosure
